import Mathlib

/-!
Verification of the Metropolis Monte Carlo simulation package
(periodic-box geometry, Lennard-Jones pair energy, MC driver).

The Python source is shallowly embedded: floating-point numbers are
idealised as real numbers, numpy arrays as lists, and the per-step
random draws (particle index, displacement triple, acceptance draw)
as an explicit input stream.  numpy's round function rounds ties to
the nearest even integer, which is modelled exactly by roundEven.
-/

namespace MCSim

/-- A 3-component coordinate vector, as used for particle positions. -/
abbrev Vec3 : Type := ℝ × ℝ × ℝ

/-- numpy round: round to nearest integer, ties to even
(IEEE 754 round half to even).  For a tie the result is the even
member of the two neighbouring integers, obtained as 2 * round (x/2). -/
noncomputable def roundEven (x : ℝ) : ℤ :=
  if Int.fract x = 1 / 2 then 2 * round (x / 2) else round x

/-- One component of Geom.wrap: v - box_length * np.round(v / box_length).
The same formula is the per-dimension minimum-image correction in
Geom.minimum_image_distance. -/
noncomputable def wrap1 (L x : ℝ) : ℝ :=
  x - L * (roundEven (x / L) : ℝ)

/-- Geom.wrap applied to a 3-vector (componentwise). -/
noncomputable def wrap (L : ℝ) (v : Vec3) : Vec3 :=
  (wrap1 L v.1, wrap1 L v.2.1, wrap1 L v.2.2)

/-- Geom.minimum_image_distance for two points: the raw difference is
corrected by subtracting length * round(diff / length) per dimension,
then squared and summed.  Returns the squared distance. -/
noncomputable def minimum_image_distance (L : ℝ) (r_i c : Vec3) : ℝ :=
  (wrap1 L (r_i.1 - c.1)) ^ 2 + (wrap1 L (r_i.2.1 - c.2.1)) ^ 2 +
    (wrap1 L (r_i.2.2 - c.2.2)) ^ 2

/-- Energy.lennard_jones_potential: sig_by_r6 = (1/rij2)^3,
sig_by_r12 = sig_by_r6^2, result 4 * (sig_by_r12 - sig_by_r6). -/
noncomputable def lennard_jones_potential (rij2 : ℝ) : ℝ :=
  4 * (((1 / rij2) ^ 3) ^ 2 - (1 / rij2) ^ 3)

/-- The list of squared distances the LJ potential is applied to in
Energy.get_particle_energy: squared minimum-image distances from
particle i to every particle, with index i removed (np.delete) and
then filtered by rij2 < cutoff2. -/
noncomputable def keptPairDistances (L cutoff2 : ℝ) (i : ℕ)
    (coords : List Vec3) : List ℝ :=
  ((coords.map fun c =>
      minimum_image_distance L (coords.getD i (0, 0, 0)) c).eraseIdx i).filter
    fun r => decide (r < cutoff2)

/-- Energy.get_particle_energy: sum of the LJ potential over the kept
pair distances of particle i. -/
noncomputable def get_particle_energy (L cutoff2 : ℝ) (i : ℕ)
    (coords : List Vec3) : ℝ :=
  ((keptPairDistances L cutoff2 i coords).map lennard_jones_potential).sum

/-- Energy.calculate_total_pair_energy: sum of get_particle_energy over
all particle indices, divided by 2 (each unordered pair counted twice). -/
noncomputable def calculate_total_pair_energy (L cutoff2 : ℝ)
    (coords : List Vec3) : ℝ :=
  (((List.range coords.length).map fun i =>
      get_particle_energy L cutoff2 i coords).sum) / 2

/-- Energy.calculate_tail_correction:
(sig_by_cutoff9 - 3 * sig_by_cutoff3) * (8/9 * pi * N / volume * N). -/
noncomputable def calculate_tail_correction (cutoff : ℝ) (numParticles : ℕ)
    (volume : ℝ) : ℝ :=
  (((1 / cutoff) ^ 3) ^ 3 - 3 * (1 / cutoff) ^ 3) *
    (8 / 9 * Real.pi * (numParticles : ℝ) / volume * (numParticles : ℝ))

/-- The per-step random draws consumed by one MC trial move:
np.random.randint(num_particles), np.random.rand(3), and the
np.random.rand(1) draw used by the acceptance test. -/
structure StepInput where
  iParticle : ℕ
  r3 : Vec3
  u : ℝ

/-- The mutable state of an MC simulation object, together with the
immutable Geom and Energy data it owns (box length, volume, particle
count, cutoff, beta).  runningPairEnergy is the local
total_pair_energy threaded through MC.run's step loop. -/
structure MCState where
  coordinates : List Vec3
  boxLength : ℝ
  volume : ℝ
  numParticles : ℕ
  cutoff : ℝ
  beta : ℝ
  maxDisplacement : ℝ
  tuneDisplacement : Bool
  nTrials : ℕ
  nAccept : ℕ
  energyArray : List ℝ
  runningPairEnergy : ℝ
  currentStep : ℕ

/-- MC._accept_or_reject: accept when delta_e < 0; otherwise accept
exactly when the uniform draw is below exp(-beta * delta_e). -/
noncomputable def accept_or_reject (beta delta_e u : ℝ) : Bool :=
  if delta_e < 0 then true
  else if u < Real.exp (-beta * delta_e) then true else false

/-- MC._adjust_displacement: acc_rate = n_accept / n_trials (as floats);
scale max_displacement by 0.8 when acc_rate < 0.38, by 1.2 when
acc_rate > 0.42, leave it otherwise; reset both counters to zero. -/
noncomputable def adjust_displacement (s : MCState) : MCState :=
  { s with
    maxDisplacement :=
      if (s.nAccept : ℝ) / (s.nTrials : ℝ) < 0.38 then
        s.maxDisplacement * 0.8
      else if (s.nAccept : ℝ) / (s.nTrials : ℝ) > 0.42 then
        s.maxDisplacement * 1.2
      else s.maxDisplacement,
    nTrials := 0,
    nAccept := 0 }

/-- The trial displacement (2.0 * np.random.rand(3) - 1.0) * max_displacement. -/
noncomputable def stepDisplacement (s : MCState) (inp : StepInput) : Vec3 :=
  ((2 * inp.r3.1 - 1) * s.maxDisplacement,
   (2 * inp.r3.2.1 - 1) * s.maxDisplacement,
   (2 * inp.r3.2.2 - 1) * s.maxDisplacement)

/-- old_coordinate: the saved copy of coordinates[i_particle]. -/
noncomputable def stepOld (s : MCState) (inp : StepInput) : Vec3 :=
  s.coordinates.getD inp.iParticle (0, 0, 0)

/-- proposed_coordinate = Geom.wrap(old_coordinate + random_displacement). -/
noncomputable def stepProposed (s : MCState) (inp : StepInput) : Vec3 :=
  wrap s.boxLength
    (stepOld s inp + stepDisplacement s inp)

/-- The coordinate array after the in-place write
coordinates[i_particle, :] = proposed_coordinate. -/
noncomputable def stepCoordsProposed (s : MCState) (inp : StepInput) :
    List Vec3 :=
  s.coordinates.set inp.iParticle (stepProposed s inp)

/-- current_energy = get_particle_energy(i_particle, coordinates),
evaluated before the displacement (cutoff2 = cutoff ** 2). -/
noncomputable def stepCurrentEnergy (s : MCState) (inp : StepInput) : ℝ :=
  get_particle_energy s.boxLength (s.cutoff ^ 2) inp.iParticle s.coordinates

/-- proposed_energy, evaluated after the displacement. -/
noncomputable def stepProposedEnergy (s : MCState) (inp : StepInput) : ℝ :=
  get_particle_energy s.boxLength (s.cutoff ^ 2) inp.iParticle
    (stepCoordsProposed s inp)

/-- delta_e = proposed_energy - current_energy. -/
noncomputable def stepDelta (s : MCState) (inp : StepInput) : ℝ :=
  stepProposedEnergy s inp - stepCurrentEnergy s inp

/-- accept = self._accept_or_reject(delta_e). -/
noncomputable def stepAccept (s : MCState) (inp : StepInput) : Bool :=
  accept_or_reject s.beta (stepDelta s inp) inp.u

/-- One trial move of MC.run's loop body, up to and including the trace
write: bump current_step and the trial counter, displace particle i in
place, accept or reject (on accept commit delta_e to the running pair
energy and bump the accept counter, on reject write old_coordinate
back), then record (total_pair_energy + tail_correction) / num_particles
at index current_step of the energy array. -/
noncomputable def mcStepMove (tail : ℝ) (s : MCState) (inp : StepInput) :
    MCState :=
  { s with
    coordinates :=
      if stepAccept s inp then stepCoordsProposed s inp
      else (stepCoordsProposed s inp).set inp.iParticle (stepOld s inp),
    runningPairEnergy :=
      if stepAccept s inp then s.runningPairEnergy + stepDelta s inp
      else s.runningPairEnergy,
    nAccept := if stepAccept s inp then s.nAccept + 1 else s.nAccept,
    nTrials := s.nTrials + 1,
    currentStep := s.currentStep + 1,
    energyArray :=
      s.energyArray.set (s.currentStep + 1)
        (((if stepAccept s inp then s.runningPairEnergy + stepDelta s inp
           else s.runningPairEnergy) + tail) / (s.numParticles : ℝ)) }

/-- The logging-cadence block at the end of a loop iteration: every freq
steps (np.mod(i_step + 1, freq) == 0), when adaptive tuning is enabled,
invoke the displacement tuning rule.  Log and snapshot writes are
external output and do not change the simulation state. -/
noncomputable def mcTune (freq iStep : ℕ) (s : MCState) : MCState :=
  if (iStep + 1) % freq = 0 ∧ s.tuneDisplacement then adjust_displacement s
  else s

/-- One full iteration of MC.run's for loop at loop index iStep. -/
noncomputable def mcStep (tail : ℝ) (freq iStep : ℕ) (s : MCState)
    (inp : StepInput) : MCState :=
  mcTune freq iStep (mcStepMove tail s inp)

/-- MC.run's for loop: i_step ranges over 1..n_steps, consuming one
StepInput per iteration. -/
noncomputable def mcLoop (tail : ℝ) (freq : ℕ) :
    ℕ → MCState → List StepInput → MCState
  | _, s, [] => s
  | iStep, s, inp :: rest =>
    mcLoop tail freq (iStep + 1) (mcStep tail freq iStep s inp) rest

/-- tail_correction = self._Energy.calculate_tail_correction(). -/
noncomputable def tail_correction_of (s : MCState) : ℝ :=
  calculate_tail_correction s.cutoff s.numParticles s.volume

/-- The pre-loop part of MC.run for n requested steps: recompute
total_pair_energy from scratch, and extend the energy array; a fresh
engine (current_step == 0) allocates n+1 zeros and stores the raw
total_pair_energy at index 0, a resumed engine appends n zeros. -/
noncomputable def mcRunInit (s : MCState) (n : ℕ) : MCState :=
  { s with
    runningPairEnergy :=
      calculate_total_pair_energy s.boxLength (s.cutoff ^ 2) s.coordinates,
    energyArray :=
      if s.currentStep = 0 then
        (List.replicate (n + 1) 0).set 0
          (calculate_total_pair_energy s.boxLength (s.cutoff ^ 2)
            s.coordinates)
      else s.energyArray ++ List.replicate n 0 }

/-- MC.run(n_steps, freq) with n_steps = inputs.length, the random
stream made explicit. -/
noncomputable def mcRun (freq : ℕ) (s : MCState) (inputs : List StepInput) :
    MCState :=
  mcLoop (tail_correction_of s) freq 1 (mcRunInit s inputs.length) inputs

/-- The engine state reached after the first k trial moves of
mcRun freq s inputs (the loop applied to the first k inputs). -/
noncomputable def runStateAfter (freq : ℕ) (s : MCState)
    (inputs : List StepInput) (k : ℕ) : MCState :=
  mcLoop (tail_correction_of s) freq 1 (mcRunInit s inputs.length)
    (inputs.take k)

/-- MC.get_energy in mm_2019_ss_1_package: raises only when the energy
array field is Python None; the field as initialised by MC.__init__ is
np.array([]), modelled as some []. -/
def get_energy_pkg (energy_array : Option (List ℝ)) :
    Except String (List ℝ) :=
  match energy_array with
  | none => Except.error "Simulation has not started running!"
  | some a => Except.ok a

/-- The value MC.__init__ stores in the energy array field:
np.array([]), an empty array (not None). -/
def init_energy_array : Option (List ℝ) := some []

/-- MC.get_energy in mm_2019_sss_1: raises when the energy array is
empty (len == 0). -/
def get_energy_sss (energy_array : List ℝ) : Except String (List ℝ) :=
  if energy_array.length = 0 then
    Except.error "Simulation has not started running!"
  else Except.ok energy_array

/-- The initialization method argument of MC.__init__ / Geom. -/
inductive Method where
  | random
  | file
  | other
deriving DecidableEq

/-- The distinct failure kinds observable during MC.__init__. -/
inductive InitError where
  | zeroDivisionError
  | invalidMethod
  | invalidArgs
deriving DecidableEq

/-- MC.__init__ control flow for given reduced_temp / reduced_den
(with num_particles and file data assumed present and well formed):
beta = 1. / float(reduced_temp) raises ZeroDivisionError when
reduced_temp == 0; the random method computes num_particles /
reduced_den, raising ZeroDivisionError when reduced_den == 0; an
unknown method raises ValueError; then the validation line raises
ValueError exactly when reduced_den < 0.0 or reduced_temp < 0.0.
On success the stored beta = 1 / reduced_temp is returned. -/
noncomputable def mc_init (method : Method) (reduced_temp reduced_den : ℝ) :
    Except InitError ℝ :=
  if reduced_temp = 0 then Except.error InitError.zeroDivisionError
  else
    match method with
    | Method.random =>
      if reduced_den = 0 then Except.error InitError.zeroDivisionError
      else if reduced_den < 0 ∨ reduced_temp < 0 then
        Except.error InitError.invalidArgs
      else Except.ok (1 / reduced_temp)
    | Method.file =>
      if reduced_den < 0 ∨ reduced_temp < 0 then
        Except.error InitError.invalidArgs
      else Except.ok (1 / reduced_temp)
    | Method.other => Except.error InitError.invalidMethod

/-- Geom.save_state serialized as rows of floats: first row the box
length written three times, second row the particle count, then
np.savetxt writes one row of exactly three fields (x, y, z) per
particle - no index column. -/
noncomputable def save_state_rows (boxLength : ℝ) (numParticles : ℕ)
    (coords : List Vec3) : List (List ℝ) :=
  [boxLength, boxLength, boxLength] :: [(numParticles : ℝ)] ::
    coords.map fun c => [c.1, c.2.1, c.2.2]

/-- One coordinate row as read by np.loadtxt(..., usecols=(1,2,3)):
fields 1, 2, 3 are taken as x, y, z (field 0 is a particle index and is
ignored); a row with fewer than four fields is a load failure. -/
noncomputable def load_coord_row (row : List ℝ) : Option Vec3 :=
  if 4 ≤ row.length then some (row.getD 1 0, row.getD 2 0, row.getD 3 0)
  else none

/-- Geom.generate_initial_state with method='file', on pre-parsed rows:
box_length is the first field of row 0, the declared particle count the
first field of row 1, the coordinates are read from columns 1..3 of the
remaining rows, and a declared count differing from the number of
coordinate rows raises ValueError. -/
noncomputable def load_state_rows (rows : List (List ℝ)) :
    Option (ℝ × ℝ × List Vec3) :=
  match rows with
  | l0 :: l1 :: rest =>
    match l0.head?, l1.head? with
    | some boxLength, some n =>
      match rest.mapM load_coord_row with
      | some coords =>
        if n = (coords.length : ℝ) then some (boxLength, n, coords)
        else none
      | none => none
    | _, _ => none
  | _ => none

/-- A concrete two-particle state used to instantiate general theorems. -/
noncomputable def exState : MCState :=
  { coordinates := [(0, 0, 0), (1 / 4, 0, 0)]
    boxLength := 1
    volume := 1
    numParticles := 2
    cutoff := 1
    beta := 1
    maxDisplacement := 1 / 10
    tuneDisplacement := true
    nTrials := 0
    nAccept := 0
    energyArray := []
    runningPairEnergy := 0
    currentStep := 0 }

/-- A concrete one-particle fresh state. -/
noncomputable def exState1 : MCState :=
  { coordinates := [(0, 0, 0)]
    boxLength := 1
    volume := 1
    numParticles := 1
    cutoff := 1
    beta := 1
    maxDisplacement := 1 / 10
    tuneDisplacement := true
    nTrials := 0
    nAccept := 0
    energyArray := []
    runningPairEnergy := 0
    currentStep := 0 }

/-- A concrete trial-move input: particle 0, zero displacement draw
(rand(3) = (1/2, 1/2, 1/2)), acceptance draw 1/2. -/
noncomputable def exInput : StepInput :=
  { iParticle := 0
    r3 := (1 / 2, 1 / 2, 1 / 2)
    u := 1 / 2 }

/-- A concrete statistics state for the tuning rule: 30 accepts out of
100 trials. -/
noncomputable def exStats : MCState :=
  { exState with nTrials := 100, nAccept := 30, maxDisplacement := 1 }

end MCSim

namespace MCSim

theorem roundEven_of_fract_ne (x : ℝ) (h : Int.fract x ≠ 1 / 2) :
    roundEven x = round x := by
  unfold roundEven
  rw [if_neg h]

theorem roundEven_tie_even (x : ℝ) (h : Int.fract x = 1 / 2) (he : Even ⌊x⌋) :
    roundEven x = ⌊x⌋ := by
  obtain ⟨m, hm⟩ := he
  have hx : x = (⌊x⌋ : ℝ) + 1 / 2 := by
    have := Int.floor_add_fract x
    rw [h] at this
    linarith
  have hx2 : x / 2 = 1 / 4 + (m : ℝ) := by
    rw [hx, hm]
    push_cast
    ring
  have hr : round ((1 : ℝ) / 4) = 0 := by
    rw [round_eq]
    have h34 : (1 : ℝ) / 4 + 1 / 2 = 3 / 4 := by norm_num
    rw [h34, Int.floor_eq_zero_iff]
    simp only [Set.mem_Ico]
    constructor <;> norm_num
  unfold roundEven
  rw [if_pos h, hx2, round_add_int, hr, hm]
  ring

theorem roundEven_tie_odd (x : ℝ) (h : Int.fract x = 1 / 2) (ho : Odd ⌊x⌋) :
    roundEven x = ⌊x⌋ + 1 := by
  obtain ⟨m, hm⟩ := ho
  have hx : x = (⌊x⌋ : ℝ) + 1 / 2 := by
    have := Int.floor_add_fract x
    rw [h] at this
    linarith
  have hx2 : x / 2 = 3 / 4 + (m : ℝ) := by
    rw [hx, hm]
    push_cast
    ring
  have hr : round ((3 : ℝ) / 4) = 1 := by
    rw [round_eq]
    have h54 : (3 : ℝ) / 4 + 1 / 2 = 5 / 4 := by norm_num
    rw [h54, Int.floor_eq_iff]
    constructor <;> norm_num
  unfold roundEven
  rw [if_pos h, hx2, round_add_int, hr, hm]
  ring

theorem roundEven_tie_cases (x : ℝ) (h : Int.fract x = 1 / 2) :
    x - (roundEven x : ℝ) = 1 / 2 ∨ x - (roundEven x : ℝ) = -(1 / 2) := by
  have hx : x = (⌊x⌋ : ℝ) + 1 / 2 := by
    have := Int.floor_add_fract x
    rw [h] at this
    linarith
  rcases Int.even_or_odd ⌊x⌋ with he | ho
  · left
    rw [roundEven_tie_even x h he]
    linarith
  · right
    rw [roundEven_tie_odd x h ho]
    push_cast
    linarith

theorem abs_sub_roundEven_le (x : ℝ) : |x - (roundEven x : ℝ)| ≤ 1 / 2 := by
  by_cases h : Int.fract x = 1 / 2
  · rcases roundEven_tie_cases x h with h1 | h1 <;> rw [h1]
    · rw [abs_of_nonneg (by norm_num : (0 : ℝ) ≤ 1 / 2)]
    · rw [abs_neg, abs_of_nonneg (by norm_num : (0 : ℝ) ≤ 1 / 2)]
  · rw [roundEven_of_fract_ne x h]
    exact abs_sub_round x

theorem roundEven_intCast (n : ℤ) : roundEven (n : ℝ) = n := by
  have h : Int.fract ((n : ℝ)) ≠ 1 / 2 := by
    rw [Int.fract_intCast]
    norm_num
  rw [roundEven_of_fract_ne _ h, round_intCast]

theorem roundEven_zero : roundEven (0 : ℝ) = 0 := by
  rw [roundEven_of_fract_ne, round_zero]
  rw [Int.fract_zero]
  norm_num

theorem roundEven_eq_zero_of_abs_le (x : ℝ) (h : |x| ≤ 1 / 2) :
    roundEven x = 0 := by
  rcases abs_le.1 h with ⟨hl, hr⟩
  by_cases ht : Int.fract x = 1 / 2
  · have hx : x = (⌊x⌋ : ℝ) + 1 / 2 := by
      have := Int.floor_add_fract x
      rw [ht] at this
      linarith
    have hfl : ⌊x⌋ = 0 ∨ ⌊x⌋ = -1 := by
      have h1 : (⌊x⌋ : ℝ) ≤ 0 := by linarith
      have h2 : (-1 : ℝ) ≤ (⌊x⌋ : ℝ) := by linarith
      have h1' : ⌊x⌋ ≤ 0 := by exact_mod_cast h1
      have h2' : (-1 : ℤ) ≤ ⌊x⌋ := by exact_mod_cast h2
      omega
    rcases hfl with h0 | h1
    · rw [roundEven_tie_even x ht (by rw [h0]; exact even_zero), h0]
    · rw [roundEven_tie_odd x ht (by rw [h1]; decide), h1]
      decide
  · have hx2 : x < 1 / 2 := by
      rcases lt_or_eq_of_le hr with h' | h'
      · exact h'
      · exfalso
        apply ht
        rw [h']
        rw [Int.fract_eq_self]
        constructor <;> norm_num
    rw [roundEven_of_fract_ne x ht, round_eq]
    rw [Int.floor_eq_zero_iff]
    simp only [Set.mem_Ico]
    constructor <;> linarith

theorem wrap1_eq_mul (L x : ℝ) (hL : L ≠ 0) :
    wrap1 L x = L * (x / L - (roundEven (x / L) : ℝ)) := by
  unfold wrap1
  field_simp

theorem abs_wrap1_le (L x : ℝ) (hL : 0 < L) : |wrap1 L x| ≤ L / 2 := by
  rw [wrap1_eq_mul L x (ne_of_gt hL), abs_mul, abs_of_pos hL]
  have h := abs_sub_roundEven_le (x / L)
  calc L * |x / L - (roundEven (x / L) : ℝ)| ≤ L * (1 / 2) := by
        exact mul_le_mul_of_nonneg_left h (le_of_lt hL)
    _ = L / 2 := by ring

theorem wrap1_idem (L x : ℝ) (hL : 0 < L) :
    wrap1 L (wrap1 L x) = wrap1 L x := by
  have hL' : L ≠ 0 := ne_of_gt hL
  have hdiv : wrap1 L x / L = x / L - (roundEven (x / L) : ℝ) := by
    rw [wrap1_eq_mul L x hL', mul_div_cancel_left₀ _ hL']
  have habs : |wrap1 L x / L| ≤ 1 / 2 := by
    rw [abs_div, abs_of_pos hL, div_le_div_iff₀ (by positivity) (by norm_num)]
    have := abs_wrap1_le L x hL
    linarith
  have h0 : roundEven (wrap1 L x / L) = 0 := roundEven_eq_zero_of_abs_le _ habs
  show wrap1 L x - L * (roundEven (wrap1 L x / L) : ℝ) = wrap1 L x
  rw [h0]
  push_cast
  ring

theorem wrap1_sub_int_mul_sq (L x : ℝ) (k : ℤ) (hL : L ≠ 0) :
    (wrap1 L (x - (k : ℝ) * L)) ^ 2 = (wrap1 L x) ^ 2 := by
  have hdiv : (x - (k : ℝ) * L) / L = x / L - (k : ℝ) := by
    field_simp
    ring
  by_cases ht : Int.fract (x / L) = 1 / 2
  · have ht2 : Int.fract (x / L - (k : ℝ)) = 1 / 2 := by
      rw [Int.fract_sub_int]
      exact ht
    rw [wrap1_eq_mul L x hL, wrap1_eq_mul L _ hL, hdiv]
    rcases roundEven_tie_cases _ ht with h1 | h1 <;>
      rcases roundEven_tie_cases _ ht2 with h2 | h2 <;> rw [h1, h2] <;> ring
  · have ht2 : Int.fract (x / L - (k : ℝ)) ≠ 1 / 2 := by
      rw [Int.fract_sub_int]
      exact ht
    rw [wrap1_eq_mul L x hL, wrap1_eq_mul L _ hL, hdiv,
      roundEven_of_fract_ne _ ht2, roundEven_of_fract_ne _ ht, round_sub_int]
    push_cast
    ring

/-- C2: the acceptance test accepts every energy-lowering move
unconditionally, and for delta_e >= 0 accepts exactly when the fresh
uniform draw u satisfies u < exp(-beta * delta_e); being a function of
beta, delta_e and u, the decision is deterministic in them. -/
theorem C2_accept_or_reject (beta delta_e u : ℝ) :
    (delta_e < 0 → accept_or_reject beta delta_e u = true) ∧
    (0 ≤ delta_e →
      (accept_or_reject beta delta_e u = true ↔
        u < Real.exp (-beta * delta_e))) := by
  constructor
  · intro h
    unfold accept_or_reject
    rw [if_pos h]
  · intro h
    unfold accept_or_reject
    rw [if_neg (not_lt.2 h)]
    by_cases hu : u < Real.exp (-beta * delta_e)
    · rw [if_pos hu]
      simpa using hu
    · rw [if_neg hu]
      simpa using hu

/-- Witness for C2 at beta = 1, delta_e = 0, u = 1/2. -/
theorem C2_accept_or_reject_witness :
    (0 : ℝ) ≤ 0 ∧
      (accept_or_reject 1 0 (1 / 2) = true ↔
        (1 / 2 : ℝ) < Real.exp (-1 * 0)) :=
  ⟨le_refl 0, (C2_accept_or_reject 1 0 (1 / 2)).2 (le_refl 0)⟩

/-- C5: with a positive trial count, the tuning rule scales
max_displacement by exactly 0.8 below acceptance rate 0.38, by exactly
1.2 above 0.42, leaves it unchanged on the dead band [0.38, 0.42], and
resets both counters to zero in every case. -/
theorem C5_adjust_displacement (s : MCState) (h : 0 < s.nTrials) :
    ((s.nAccept : ℝ) / (s.nTrials : ℝ) < 0.38 →
      adjust_displacement s =
        { s with maxDisplacement := s.maxDisplacement * 0.8,
                 nTrials := 0, nAccept := 0 }) ∧
    (0.42 < (s.nAccept : ℝ) / (s.nTrials : ℝ) →
      adjust_displacement s =
        { s with maxDisplacement := s.maxDisplacement * 1.2,
                 nTrials := 0, nAccept := 0 }) ∧
    (0.38 ≤ (s.nAccept : ℝ) / (s.nTrials : ℝ) →
      (s.nAccept : ℝ) / (s.nTrials : ℝ) ≤ 0.42 →
      adjust_displacement s = { s with nTrials := 0, nAccept := 0 }) := by
  refine ⟨?_, ?_, ?_⟩
  · intro hlo
    unfold adjust_displacement
    rw [if_pos hlo]
  · intro hhi
    unfold adjust_displacement
    rw [if_neg (by linarith), if_pos hhi]
  · intro h1 h2
    unfold adjust_displacement
    rw [if_neg (by linarith), if_neg (by simp only [gt_iff_lt, not_lt]; linarith)]

/-- Witness for C5 at 30 accepts out of 100 trials (rate 0.30). -/
theorem C5_adjust_displacement_witness :
    0 < exStats.nTrials ∧
      adjust_displacement exStats =
        { exStats with maxDisplacement := exStats.maxDisplacement * 0.8,
                       nTrials := 0, nAccept := 0 } :=
  ⟨by norm_num [exStats], (C5_adjust_displacement exStats
    (by norm_num [exStats])).1 (by norm_num [exStats])⟩

/-- C4 counterexample: reduced_den = 0 (non-positive) with a positive
reduced_temp and file initialization passes construction with no error
at all, and reduced_temp = 0 fails with a ZeroDivisionError computing
beta, not with the invalid-argument ValueError. -/
theorem C4_counterexample :
    mc_init Method.file 1 0 = Except.ok 1 ∧
    mc_init Method.file 1 0 ≠ Except.error InitError.invalidArgs ∧
    mc_init Method.file 0 1 = Except.error InitError.zeroDivisionError := by
  refine ⟨?_, ?_, ?_⟩ <;> norm_num [mc_init] <;>
    exact fun hcontra => Except.noConfusion hcontra

/-- C4 amended: the invalid-argument ValueError is raised exactly when
reduced_den or reduced_temp is strictly negative (for valid methods,
away from the earlier zero-division failures); exactly-zero values pass
the validation line. -/
theorem C4_validation (t d : ℝ) (ht : t ≠ 0) :
    (mc_init Method.file t d = Except.error InitError.invalidArgs ↔
      d < 0 ∨ t < 0) ∧
    (d ≠ 0 →
      (mc_init Method.random t d = Except.error InitError.invalidArgs ↔
        d < 0 ∨ t < 0)) := by
  constructor
  · unfold mc_init
    rw [if_neg ht]
    by_cases h : d < 0 ∨ t < 0
    · rw [if_pos h]
      simp [h]
    · rw [if_neg h]
      simp [h]
  · intro hd
    unfold mc_init
    rw [if_neg ht, if_neg hd]
    by_cases h : d < 0 ∨ t < 0
    · rw [if_pos h]
      simp [h]
    · rw [if_neg h]
      simp [h]

/-- Witness for C4 amended at reduced_temp = 1, reduced_den = -1. -/
theorem C4_validation_witness :
    (1 : ℝ) ≠ 0 ∧
      ((mc_init Method.file 1 (-1) = Except.error InitError.invalidArgs ↔
          (-1 : ℝ) < 0 ∨ (1 : ℝ) < 0) ∧
        ((-1 : ℝ) ≠ 0 →
          (mc_init Method.random 1 (-1) = Except.error InitError.invalidArgs ↔
            (-1 : ℝ) < 0 ∨ (1 : ℝ) < 0))) :=
  ⟨by norm_num, C4_validation 1 (-1) (by norm_num)⟩

/-- C9: on a fresh engine the mm_2019_ss_1_package get_energy guard
compares the energy array against None, but the field is initialised to
the empty array np.array([]), so the guard never fires and the empty
trace is returned instead of the intended precondition error; the
mm_2019_sss_1 variant checks the length and does raise. -/
theorem C9_get_energy_fresh :
    get_energy_pkg init_energy_array = Except.ok [] ∧
    get_energy_sss [] =
      Except.error "Simulation has not started running!" := by
  constructor <;> rfl

/-- C3: loading the serialized form of a snapshot fails: save_state
writes coordinate rows with three fields and no index column, while the
file loader takes coordinates from columns 1..3 and needs at least four
fields per row, so the round trip aborts instead of reproducing the
state. -/
theorem C3_roundtrip_fails :
    load_state_rows (save_state_rows 10 2 [(0, 0, 0), (1, 1, 1)]) =
      none := rfl

theorem roundEven_half : roundEven ((1 : ℝ) / 2) = 0 := by
  have hfr : Int.fract ((1 : ℝ) / 2) = 1 / 2 := by
    rw [Int.fract_eq_self]
    constructor <;> norm_num
  have hfl : ⌊((1 : ℝ) / 2)⌋ = 0 := by
    rw [Int.floor_eq_zero_iff]
    simp only [Set.mem_Ico]
    constructor <;> norm_num
  rw [roundEven_tie_even _ hfr (by rw [hfl]; exact even_zero), hfl]

theorem wrap1_half : wrap1 1 ((1 : ℝ) / 2) = 1 / 2 := by
  unfold wrap1
  rw [div_one, roundEven_half]
  norm_num

/-- C7 counterexample: with box length 1, the component 1/2 is a fixed
point of wrap (numpy rounds the tie 0.5 to the even integer 0), so
wrap((1/2, 0, 0)) has first component exactly 1/2, which is not inside
the half-open interval [-1/2, 1/2). -/
theorem C7_counterexample :
    (wrap 1 ((1 : ℝ) / 2, 0, 0)).1 = 1 / 2 ∧
    ¬ ((wrap 1 ((1 : ℝ) / 2, 0, 0)).1 < 1 / 2) := by
  have h : (wrap 1 ((1 : ℝ) / 2, 0, 0)).1 = 1 / 2 := wrap1_half
  exact ⟨h, by rw [h]; norm_num⟩

/-- C7 amended: for a positive box length, wrap is idempotent and every
component of wrap(v) lies in the closed interval [-length/2, length/2]
(the endpoint length/2 is attainable because numpy rounds ties to
even). -/
theorem C7_wrap_idempotent_and_range (L : ℝ) (v : Vec3) (hL : 0 < L) :
    wrap L (wrap L v) = wrap L v ∧
    (-(L / 2) ≤ (wrap L v).1 ∧ (wrap L v).1 ≤ L / 2) ∧
    (-(L / 2) ≤ (wrap L v).2.1 ∧ (wrap L v).2.1 ≤ L / 2) ∧
    (-(L / 2) ≤ (wrap L v).2.2 ∧ (wrap L v).2.2 ≤ L / 2) := by
  have hc : ∀ x : ℝ, -(L / 2) ≤ wrap1 L x ∧ wrap1 L x ≤ L / 2 := by
    intro x
    have h := abs_wrap1_le L x hL
    exact ⟨by linarith [neg_abs_le (wrap1 L x)],
      by linarith [le_abs_self (wrap1 L x)]⟩
  refine ⟨?_, hc v.1, hc v.2.1, hc v.2.2⟩
  show (wrap1 L (wrap1 L v.1), wrap1 L (wrap1 L v.2.1),
    wrap1 L (wrap1 L v.2.2)) =
    (wrap1 L v.1, wrap1 L v.2.1, wrap1 L v.2.2)
  rw [wrap1_idem L v.1 hL, wrap1_idem L v.2.1 hL, wrap1_idem L v.2.2 hL]

/-- Witness for C7 amended at L = 1, v = (1/2, 0, 0). -/
theorem C7_wrap_idempotent_and_range_witness :
    (0 : ℝ) < 1 ∧
    (wrap 1 (wrap 1 ((1 : ℝ) / 2, 0, 0)) = wrap 1 ((1 : ℝ) / 2, 0, 0) ∧
      (-((1 : ℝ) / 2) ≤ (wrap 1 ((1 : ℝ) / 2, 0, 0)).1 ∧
        (wrap 1 ((1 : ℝ) / 2, 0, 0)).1 ≤ 1 / 2) ∧
      (-((1 : ℝ) / 2) ≤ (wrap 1 ((1 : ℝ) / 2, 0, 0)).2.1 ∧
        (wrap 1 ((1 : ℝ) / 2, 0, 0)).2.1 ≤ 1 / 2) ∧
      (-((1 : ℝ) / 2) ≤ (wrap 1 ((1 : ℝ) / 2, 0, 0)).2.2 ∧
        (wrap 1 ((1 : ℝ) / 2, 0, 0)).2.2 ≤ 1 / 2)) :=
  ⟨by norm_num,
    C7_wrap_idempotent_and_range 1 ((1 : ℝ) / 2, 0, 0) (by norm_num)⟩

/-- C8: the squared minimum-image distance is invariant under shifting
the second point by any integer multiple of the box length in each
dimension. -/
theorem C8_minimum_image_invariant (L : ℝ) (p q : Vec3) (k : ℤ × ℤ × ℤ)
    (hL : 0 < L) :
    minimum_image_distance L p
      (q.1 + (k.1 : ℝ) * L, q.2.1 + (k.2.1 : ℝ) * L,
        q.2.2 + (k.2.2 : ℝ) * L) =
    minimum_image_distance L p q := by
  have hL' : L ≠ 0 := ne_of_gt hL
  unfold minimum_image_distance
  have e1 : p.1 - (q.1 + (k.1 : ℝ) * L) = p.1 - q.1 - (k.1 : ℝ) * L := by
    ring
  have e2 : p.2.1 - (q.2.1 + (k.2.1 : ℝ) * L) =
      p.2.1 - q.2.1 - (k.2.1 : ℝ) * L := by
    ring
  have e3 : p.2.2 - (q.2.2 + (k.2.2 : ℝ) * L) =
      p.2.2 - q.2.2 - (k.2.2 : ℝ) * L := by
    ring
  rw [e1, e2, e3, wrap1_sub_int_mul_sq _ _ _ hL',
    wrap1_sub_int_mul_sq _ _ _ hL', wrap1_sub_int_mul_sq _ _ _ hL']

/-- Witness for C8 at L = 1, p = q = origin, k = (1, 0, 0). -/
theorem C8_minimum_image_invariant_witness :
    (0 : ℝ) < 1 ∧
    minimum_image_distance 1 ((0 : ℝ), (0 : ℝ), (0 : ℝ))
      ((0 : ℝ) + ((1 : ℤ) : ℝ) * 1, (0 : ℝ) + ((0 : ℤ) : ℝ) * 1,
        (0 : ℝ) + ((0 : ℤ) : ℝ) * 1) =
    minimum_image_distance 1 ((0 : ℝ), (0 : ℝ), (0 : ℝ))
      ((0 : ℝ), (0 : ℝ), (0 : ℝ)) :=
  ⟨by norm_num,
    C8_minimum_image_invariant 1 (0, 0, 0) (0, 0, 0) (1, 0, 0)
      (by norm_num)⟩

theorem wrap1_zero (L : ℝ) : wrap1 L 0 = 0 := by
  unfold wrap1
  rw [zero_div, roundEven_zero]
  norm_num

theorem wrap1_one_int (n : ℤ) : wrap1 1 (n : ℝ) = 0 := by
  unfold wrap1
  rw [div_one, roundEven_intCast]
  ring

theorem wrap1_one_small (x : ℝ) (h : |x| ≤ 1 / 2) : wrap1 1 x = x := by
  unfold wrap1
  rw [div_one, roundEven_eq_zero_of_abs_le x h]
  push_cast
  ring

theorem minimum_image_distance_nonneg (L : ℝ) (a b : Vec3) :
    0 ≤ minimum_image_distance L a b := by
  unfold minimum_image_distance
  positivity

theorem mid_unit_pair :
    minimum_image_distance 1 ((0 : ℝ), (0 : ℝ), (0 : ℝ))
      ((1 : ℝ), (0 : ℝ), (0 : ℝ)) = 0 := by
  show (wrap1 1 ((0 : ℝ) - 1)) ^ 2 + (wrap1 1 ((0 : ℝ) - 0)) ^ 2 +
    (wrap1 1 ((0 : ℝ) - 0)) ^ 2 = 0
  have h1 : (0 : ℝ) - 1 = ((-1 : ℤ) : ℝ) := by push_cast; ring
  have h2 : (0 : ℝ) - 0 = 0 := by ring
  rw [h1, h2, wrap1_one_int, wrap1_zero]
  ring

theorem mid_self_zero :
    minimum_image_distance 1 ((0 : ℝ), (0 : ℝ), (0 : ℝ))
      ((0 : ℝ), (0 : ℝ), (0 : ℝ)) = 0 := by
  show (wrap1 1 ((0 : ℝ) - 0)) ^ 2 + (wrap1 1 ((0 : ℝ) - 0)) ^ 2 +
    (wrap1 1 ((0 : ℝ) - 0)) ^ 2 = 0
  have h2 : (0 : ℝ) - 0 = 0 := by ring
  rw [h2, wrap1_zero]
  ring

/-- C10 counterexample: the raw positions (0,0,0) and (1,0,0) are
pairwise distinct, yet in a box of length 1 they are periodic images of
each other, so the squared distance 0 survives the self-pair removal
and the cutoff filter and the LJ potential is applied at zero. -/
theorem C10_counterexample :
    List.Pairwise (fun a b => a ≠ b)
      [((0 : ℝ), (0 : ℝ), (0 : ℝ)), ((1 : ℝ), (0 : ℝ), (0 : ℝ))] ∧
    (0 : ℝ) ∈ keptPairDistances 1 (3 ^ 2) 0
      [((0 : ℝ), (0 : ℝ), (0 : ℝ)), ((1 : ℝ), (0 : ℝ), (0 : ℝ))] := by
  constructor
  · refine List.Pairwise.cons ?_ (List.pairwise_singleton _ _)
    intro b hb
    rw [List.mem_singleton] at hb
    subst hb
    intro hcontra
    have h01 : (0 : ℝ) = 1 := congrArg Prod.fst hcontra
    norm_num at h01
  · show (0 : ℝ) ∈
      [minimum_image_distance 1 ((0 : ℝ), (0 : ℝ), (0 : ℝ))
        ((1 : ℝ), (0 : ℝ), (0 : ℝ))].filter fun r => decide (r < 3 ^ 2)
    rw [mid_unit_pair]
    have hcond : ((0 : ℝ) < 3 ^ 2) := by norm_num
    simp [List.filter_cons, hcond]

/-- C10 amended: when every other particle has nonzero squared
minimum-image distance to particle i (distinct positions modulo the
periodic box), every squared distance reaching the LJ potential in
get_particle_energy is strictly positive; the self-pair is removed
before the cutoff filter by construction. -/
theorem C10_kept_distances_positive (L cutoff2 : ℝ) (i : ℕ)
    (coords : List Vec3)
    (h : ∀ j, (hj : j < coords.length) → j ≠ i →
      minimum_image_distance L (coords.getD i (0, 0, 0))
        (coords.get ⟨j, hj⟩) ≠ 0) :
    ∀ r ∈ keptPairDistances L cutoff2 i coords, 0 < r := by
  intro r hr
  unfold keptPairDistances at hr
  rw [List.mem_filter] at hr
  obtain ⟨hmem, _⟩ := hr
  rw [List.mem_eraseIdx_iff_getElem] at hmem
  obtain ⟨j, hj, hne, heq⟩ := hmem
  have hj' : j < coords.length := by simpa using hj
  have hne0 := h j hj' hne
  have hnn := minimum_image_distance_nonneg L (coords.getD i (0, 0, 0))
    (coords.get ⟨j, hj'⟩)
  subst heq
  rw [List.getElem_map]
  simp only [List.get_eq_getElem] at hne0 hnn
  exact lt_of_le_of_ne hnn (Ne.symm hne0)

/-- Witness for C10 amended at the concrete two-particle state. -/
theorem C10_kept_distances_positive_witness :
    (∀ j, (hj : j < exState.coordinates.length) → j ≠ 0 →
      minimum_image_distance 1 (exState.coordinates.getD 0 (0, 0, 0))
        (exState.coordinates.get ⟨j, hj⟩) ≠ 0) ∧
    (∀ r ∈ keptPairDistances 1 (3 ^ 2) 0 exState.coordinates, 0 < r) := by
  have hhyp : ∀ j, (hj : j < exState.coordinates.length) → j ≠ 0 →
      minimum_image_distance 1 (exState.coordinates.getD 0 (0, 0, 0))
        (exState.coordinates.get ⟨j, hj⟩) ≠ 0 := by
    intro j hj hne
    have hj2 : j < 2 := hj
    have hj1 : j = 1 := by omega
    subst hj1
    show minimum_image_distance 1 ((0 : ℝ), (0 : ℝ), (0 : ℝ))
      ((1 / 4 : ℝ), (0 : ℝ), (0 : ℝ)) ≠ 0
    show (wrap1 1 ((0 : ℝ) - 1 / 4)) ^ 2 + (wrap1 1 ((0 : ℝ) - 0)) ^ 2 +
      (wrap1 1 ((0 : ℝ) - 0)) ^ 2 ≠ 0
    have e0 : (0 : ℝ) - 1 / 4 = -(1 / 4) := by ring
    have e1 : wrap1 1 ((0 : ℝ) - 1 / 4) = -(1 / 4) := by
      rw [e0]
      refine wrap1_one_small _ ?_
      rw [abs_neg, abs_of_nonneg (by norm_num : (0 : ℝ) ≤ 1 / 4)]
      norm_num
    have e2 : (0 : ℝ) - 0 = 0 := by ring
    rw [e1, e2, wrap1_zero]
    norm_num
  exact ⟨hhyp,
    C10_kept_distances_positive 1 (3 ^ 2) 0 exState.coordinates hhyp⟩

theorem mcTune_coordinates (freq iStep : ℕ) (s : MCState) :
    (mcTune freq iStep s).coordinates = s.coordinates := by
  unfold mcTune
  split_ifs <;> rfl

theorem mcTune_runningPairEnergy (freq iStep : ℕ) (s : MCState) :
    (mcTune freq iStep s).runningPairEnergy = s.runningPairEnergy := by
  unfold mcTune
  split_ifs <;> rfl

theorem mcTune_energyArray (freq iStep : ℕ) (s : MCState) :
    (mcTune freq iStep s).energyArray = s.energyArray := by
  unfold mcTune
  split_ifs <;> rfl

theorem mcTune_currentStep (freq iStep : ℕ) (s : MCState) :
    (mcTune freq iStep s).currentStep = s.currentStep := by
  unfold mcTune
  split_ifs <;> rfl

theorem mcTune_numParticles (freq iStep : ℕ) (s : MCState) :
    (mcTune freq iStep s).numParticles = s.numParticles := by
  unfold mcTune
  split_ifs <;> rfl

theorem mcStep_coordinates (tail : ℝ) (freq iStep : ℕ) (s : MCState)
    (inp : StepInput) :
    (mcStep tail freq iStep s inp).coordinates =
      if stepAccept s inp then stepCoordsProposed s inp
      else (stepCoordsProposed s inp).set inp.iParticle (stepOld s inp) := by
  unfold mcStep
  rw [mcTune_coordinates]
  rfl

theorem mcStep_runningPairEnergy (tail : ℝ) (freq iStep : ℕ) (s : MCState)
    (inp : StepInput) :
    (mcStep tail freq iStep s inp).runningPairEnergy =
      if stepAccept s inp then s.runningPairEnergy + stepDelta s inp
      else s.runningPairEnergy := by
  unfold mcStep
  rw [mcTune_runningPairEnergy]
  rfl

theorem mcStep_currentStep (tail : ℝ) (freq iStep : ℕ) (s : MCState)
    (inp : StepInput) :
    (mcStep tail freq iStep s inp).currentStep = s.currentStep + 1 := by
  unfold mcStep
  rw [mcTune_currentStep]
  rfl

theorem mcStep_numParticles (tail : ℝ) (freq iStep : ℕ) (s : MCState)
    (inp : StepInput) :
    (mcStep tail freq iStep s inp).numParticles = s.numParticles := by
  unfold mcStep
  rw [mcTune_numParticles]
  rfl

theorem mcStep_energyArray (tail : ℝ) (freq iStep : ℕ) (s : MCState)
    (inp : StepInput) :
    (mcStep tail freq iStep s inp).energyArray =
      s.energyArray.set (s.currentStep + 1)
        (((mcStep tail freq iStep s inp).runningPairEnergy + tail) /
          (s.numParticles : ℝ)) := by
  unfold mcStep
  rw [mcTune_energyArray, mcTune_runningPairEnergy]
  rfl

/-- C6: each trial move either fully commits (particle i gets the
wrapped proposed position and the running pair energy gains exactly
delta_e) or fully reverts (particle i keeps its pre-move coordinate and
the accumulator is unchanged); in both cases all other particles are
untouched, so coordinate and accumulator are never left inconsistent. -/
theorem C6_trial_move_atomic (tail : ℝ) (freq iStep : ℕ) (s : MCState)
    (inp : StepInput) (hi : inp.iParticle < s.coordinates.length) :
    (∀ j, j < s.coordinates.length → j ≠ inp.iParticle →
      (mcStep tail freq iStep s inp).coordinates.getD j (0, 0, 0) =
        s.coordinates.getD j (0, 0, 0)) ∧
    (stepAccept s inp = true →
      (mcStep tail freq iStep s inp).coordinates.getD inp.iParticle
          (0, 0, 0) =
        stepProposed s inp ∧
      (mcStep tail freq iStep s inp).runningPairEnergy =
        s.runningPairEnergy + stepDelta s inp) ∧
    (stepAccept s inp = false →
      (mcStep tail freq iStep s inp).coordinates.getD inp.iParticle
          (0, 0, 0) =
        s.coordinates.getD inp.iParticle (0, 0, 0) ∧
      (mcStep tail freq iStep s inp).runningPairEnergy =
        s.runningPairEnergy) := by
  refine ⟨?_, ?_, ?_⟩
  · intro j hj hne
    rw [mcStep_coordinates]
    by_cases ha : stepAccept s inp
    · rw [if_pos ha]
      unfold stepCoordsProposed
      rw [List.getD_eq_getElem?_getD, List.getD_eq_getElem?_getD,
        List.getElem?_set_ne hne.symm]
    · rw [if_neg ha]
      unfold stepCoordsProposed
      rw [List.getD_eq_getElem?_getD, List.getD_eq_getElem?_getD,
        List.getElem?_set_ne hne.symm, List.getElem?_set_ne hne.symm]
  · intro ha
    constructor
    · rw [mcStep_coordinates, if_pos ha]
      unfold stepCoordsProposed
      rw [List.getD_eq_getElem?_getD, List.getElem?_set_self hi]
      rfl
    · rw [mcStep_runningPairEnergy, if_pos ha]
  · intro ha
    have ha' : ¬ (stepAccept s inp = true) := by
      rw [ha]
      exact Bool.false_ne_true
    constructor
    · rw [mcStep_coordinates, if_neg ha']
      unfold stepCoordsProposed
      rw [List.set_set, List.getD_eq_getElem?_getD,
        List.getElem?_set_self hi]
      unfold stepOld
      rfl
    · rw [mcStep_runningPairEnergy, if_neg ha']

/-- Witness for C6 at the concrete two-particle state and trial input. -/
theorem C6_trial_move_atomic_witness :
    exInput.iParticle < exState.coordinates.length ∧
    ((∀ j, j < exState.coordinates.length → j ≠ exInput.iParticle →
      (mcStep 0 100 1 exState exInput).coordinates.getD j (0, 0, 0) =
        exState.coordinates.getD j (0, 0, 0)) ∧
    (stepAccept exState exInput = true →
      (mcStep 0 100 1 exState exInput).coordinates.getD exInput.iParticle
          (0, 0, 0) =
        stepProposed exState exInput ∧
      (mcStep 0 100 1 exState exInput).runningPairEnergy =
        exState.runningPairEnergy + stepDelta exState exInput) ∧
    (stepAccept exState exInput = false →
      (mcStep 0 100 1 exState exInput).coordinates.getD exInput.iParticle
          (0, 0, 0) =
        exState.coordinates.getD exInput.iParticle (0, 0, 0) ∧
      (mcStep 0 100 1 exState exInput).runningPairEnergy =
        exState.runningPairEnergy)) :=
  ⟨by norm_num [exInput, exState],
    C6_trial_move_atomic 0 100 1 exState exInput
      (by norm_num [exInput, exState])⟩

theorem mcLoop_cons (tail : ℝ) (freq iStep : ℕ) (s : MCState)
    (inp : StepInput) (rest : List StepInput) :
    mcLoop tail freq iStep s (inp :: rest) =
      mcLoop tail freq (iStep + 1) (mcStep tail freq iStep s inp) rest :=
  rfl

theorem mcLoop_currentStep (tail : ℝ) (freq : ℕ) (l : List StepInput) :
    ∀ (iStep : ℕ) (s : MCState),
      (mcLoop tail freq iStep s l).currentStep =
        s.currentStep + l.length := by
  induction l with
  | nil => intro iStep s; rfl
  | cons inp rest ih =>
    intro iStep s
    rw [mcLoop_cons, ih, mcStep_currentStep, List.length_cons]
    omega

theorem mcLoop_numParticles (tail : ℝ) (freq : ℕ) (l : List StepInput) :
    ∀ (iStep : ℕ) (s : MCState),
      (mcLoop tail freq iStep s l).numParticles = s.numParticles := by
  induction l with
  | nil => intro iStep s; rfl
  | cons inp rest ih =>
    intro iStep s
    rw [mcLoop_cons, ih, mcStep_numParticles]

theorem mcLoop_energyArray_length (tail : ℝ) (freq : ℕ)
    (l : List StepInput) :
    ∀ (iStep : ℕ) (s : MCState),
      (mcLoop tail freq iStep s l).energyArray.length =
        s.energyArray.length := by
  induction l with
  | nil => intro iStep s; rfl
  | cons inp rest ih =>
    intro iStep s
    rw [mcLoop_cons, ih, mcStep_energyArray, List.length_set]

theorem mcLoop_energyArray_stable (tail : ℝ) (freq : ℕ)
    (l : List StepInput) :
    ∀ (iStep : ℕ) (s : MCState) (j : ℕ), j ≤ s.currentStep →
      (mcLoop tail freq iStep s l).energyArray.getD j 0 =
        s.energyArray.getD j 0 := by
  induction l with
  | nil => intro iStep s j _; rfl
  | cons inp rest ih =>
    intro iStep s j hj
    rw [mcLoop_cons, ih (iStep + 1) _ j
      (by rw [mcStep_currentStep]; omega)]
    rw [mcStep_energyArray, List.getD_eq_getElem?_getD,
      List.getD_eq_getElem?_getD,
      List.getElem?_set_ne (by omega : s.currentStep + 1 ≠ j)]

theorem mcLoop_append (tail : ℝ) (freq : ℕ) (l1 : List StepInput) :
    ∀ (l2 : List StepInput) (iStep : ℕ) (s : MCState),
      mcLoop tail freq iStep s (l1 ++ l2) =
        mcLoop tail freq (iStep + l1.length)
          (mcLoop tail freq iStep s l1) l2 := by
  induction l1 with
  | nil => intro l2 iStep s; rfl
  | cons inp rest ih =>
    intro l2 iStep s
    rw [List.cons_append, mcLoop_cons, ih, mcLoop_cons, List.length_cons]
    have harith : iStep + 1 + rest.length = iStep + (rest.length + 1) := by
      omega
    rw [harith]

theorem mcRunInit_currentStep (s : MCState) (n : ℕ) :
    (mcRunInit s n).currentStep = s.currentStep :=
  rfl

theorem mcRunInit_numParticles (s : MCState) (n : ℕ) :
    (mcRunInit s n).numParticles = s.numParticles :=
  rfl

theorem mcRunInit_runningPairEnergy (s : MCState) (n : ℕ) :
    (mcRunInit s n).runningPairEnergy =
      calculate_total_pair_energy s.boxLength (s.cutoff ^ 2) s.coordinates :=
  rfl

theorem mcRunInit_energyArray_fresh (s : MCState) (n : ℕ)
    (h0 : s.currentStep = 0) :
    (mcRunInit s n).energyArray =
      (List.replicate (n + 1) 0).set 0
        (calculate_total_pair_energy s.boxLength (s.cutoff ^ 2)
          s.coordinates) := by
  unfold mcRunInit
  rw [if_pos h0]

/-- C1 amended: from a fresh engine, run(n_steps) produces an energy
trace of length n_steps + 1 whose entries at indices 1..n_steps equal
(runningPairEnergy after that step + tailCorrection) / N, while index 0
holds the raw initial total pair energy - with no tail correction and
no division by the particle count, unlike every later entry. -/
theorem C1_energy_trace (freq : ℕ) (s : MCState) (inputs : List StepInput)
    (h0 : s.currentStep = 0) (hn : 1 ≤ inputs.length) :
    (mcRun freq s inputs).energyArray.length = inputs.length + 1 ∧
    (mcRun freq s inputs).energyArray.getD 0 0 =
      calculate_total_pair_energy s.boxLength (s.cutoff ^ 2)
        s.coordinates ∧
    (∀ k, 1 ≤ k → k ≤ inputs.length →
      (mcRun freq s inputs).energyArray.getD k 0 =
        ((runStateAfter freq s inputs k).runningPairEnergy +
          tail_correction_of s) / (s.numParticles : ℝ)) := by
  have hs0arr := mcRunInit_energyArray_fresh s inputs.length h0
  have hs0len : (mcRunInit s inputs.length).energyArray.length =
      inputs.length + 1 := by
    rw [hs0arr, List.length_set, List.length_replicate]
  have hs0cs : (mcRunInit s inputs.length).currentStep = 0 := by
    rw [mcRunInit_currentStep, h0]
  refine ⟨?_, ?_, ?_⟩
  · unfold mcRun
    rw [mcLoop_energyArray_length, hs0len]
  · unfold mcRun
    rw [mcLoop_energyArray_stable _ _ _ _ _ 0 (by rw [hs0cs]), hs0arr,
      List.getD_eq_getElem?_getD,
      List.getElem?_set_self (by rw [List.length_replicate]; omega)]
    rfl
  · intro k hk1 hkn
    obtain ⟨m, rfl⟩ : ∃ m, k = m + 1 := ⟨k - 1, by omega⟩
    have hm : m < inputs.length := by omega
    have htake_len : (inputs.take (m + 1)).length = m + 1 := by
      rw [List.length_take]
      omega
    have htakem_len : (inputs.take m).length = m := by
      rw [List.length_take]
      omega
    unfold mcRun runStateAfter
    obtain ⟨s0, hs0⟩ : ∃ t, mcRunInit s inputs.length = t := ⟨_, rfl⟩
    rw [hs0]
    have hs0len2 : s0.energyArray.length = inputs.length + 1 := by
      rw [← hs0]
      exact hs0len
    have hs0cs2 : s0.currentStep = 0 := by
      rw [← hs0]
      exact hs0cs
    have hs0np : s0.numParticles = s.numParticles := by
      rw [← hs0]
      exact mcRunInit_numParticles s inputs.length
    have hsk_cs : (mcLoop (tail_correction_of s) freq 1 s0
        (inputs.take (m + 1))).currentStep = m + 1 := by
      rw [mcLoop_currentStep, hs0cs2, htake_len]
      omega
    have hdecomp : mcLoop (tail_correction_of s) freq 1 s0 inputs =
        mcLoop (tail_correction_of s) freq (1 + (m + 1))
          (mcLoop (tail_correction_of s) freq 1 s0 (inputs.take (m + 1)))
          (inputs.drop (m + 1)) := by
      conv_lhs => rw [← List.take_append_drop (m + 1) inputs]
      rw [mcLoop_append, htake_len]
    rw [hdecomp,
      mcLoop_energyArray_stable _ _ _ _ _ (m + 1) (le_of_eq hsk_cs.symm)]
    -- the state after the first m+1 steps is one mcStep past the state
    -- after the first m steps
    have htake_succ : inputs.take (m + 1) =
        inputs.take m ++ [inputs.get ⟨m, hm⟩] := by
      rw [List.take_succ]
      congr 1
      rw [List.getElem?_eq_getElem hm]
      rfl
    have hsm_cs : (mcLoop (tail_correction_of s) freq 1 s0
        (inputs.take m)).currentStep = m := by
      rw [mcLoop_currentStep, hs0cs2, htakem_len]
      omega
    have hsm_len : (mcLoop (tail_correction_of s) freq 1 s0
        (inputs.take m)).energyArray.length = inputs.length + 1 := by
      rw [mcLoop_energyArray_length, hs0len2]
    have hsm_np : (mcLoop (tail_correction_of s) freq 1 s0
        (inputs.take m)).numParticles = s.numParticles := by
      rw [mcLoop_numParticles, hs0np]
    have hstep : mcLoop (tail_correction_of s) freq 1 s0
        (inputs.take (m + 1)) =
        mcStep (tail_correction_of s) freq (1 + m)
          (mcLoop (tail_correction_of s) freq 1 s0 (inputs.take m))
          (inputs.get ⟨m, hm⟩) := by
      rw [htake_succ, mcLoop_append, htakem_len]
      rfl
    rw [hstep, mcStep_energyArray, hsm_cs, hsm_np,
      List.getD_eq_getElem?_getD,
      List.getElem?_set_self (by rw [hsm_len]; omega)]
    rw [← hstep]
    rfl

/-- Witness for C1 amended: the concrete fresh two-particle engine run
for a single step. -/
theorem C1_energy_trace_witness :
    exState.currentStep = 0 ∧ 1 ≤ ([exInput] : List StepInput).length ∧
    ((mcRun 100 exState [exInput]).energyArray.length =
        ([exInput] : List StepInput).length + 1 ∧
      (mcRun 100 exState [exInput]).energyArray.getD 0 0 =
        calculate_total_pair_energy exState.boxLength (exState.cutoff ^ 2)
          exState.coordinates ∧
      (∀ k, 1 ≤ k → k ≤ ([exInput] : List StepInput).length →
        (mcRun 100 exState [exInput]).energyArray.getD k 0 =
          ((runStateAfter 100 exState [exInput] k).runningPairEnergy +
            tail_correction_of exState) / (exState.numParticles : ℝ))) :=
  ⟨rfl, by norm_num,
    C1_energy_trace 100 exState [exInput] rfl (by norm_num)⟩

theorem gpe_single_particle :
    get_particle_energy 1 (1 ^ 2) 0 [((0 : ℝ), (0 : ℝ), (0 : ℝ))] = 0 :=
  rfl

theorem tpe_exState1 :
    calculate_total_pair_energy exState1.boxLength (exState1.cutoff ^ 2)
      exState1.coordinates = 0 := by
  show ([get_particle_energy 1 (1 ^ 2) 0
      [((0 : ℝ), (0 : ℝ), (0 : ℝ))]].sum) / 2 = 0
  rw [gpe_single_particle]
  norm_num

theorem tail_exState1 : tail_correction_of exState1 =
    -(16 / 9) * Real.pi := by
  show calculate_tail_correction 1 1 1 = -(16 / 9) * Real.pi
  unfold calculate_tail_correction
  push_cast
  ring

/-- C1 counterexample: for the fresh one-particle engine run for one
step, the trace entry at index 0 is the raw initial pair energy 0,
which differs from the tail-corrected per-particle form
(runningPairEnergy after step 0 + tailCorrection) / N = -16*pi/9
demanded by the claim for every index k from 0 to n_steps. -/
theorem C1_counterexample :
    ¬ ((mcRun 100 exState1 [exInput]).energyArray.getD 0 0 =
        ((runStateAfter 100 exState1 [exInput] 0).runningPairEnergy +
          tail_correction_of exState1) / (exState1.numParticles : ℝ)) := by
  have hlhs : (mcRun 100 exState1 [exInput]).energyArray.getD 0 0 = 0 := by
    unfold mcRun
    rw [mcLoop_energyArray_stable _ _ _ _ _ 0
      (by rw [mcRunInit_currentStep]; rfl)]
    rw [mcRunInit_energyArray_fresh exState1 _ rfl,
      List.getD_eq_getElem?_getD,
      List.getElem?_set_self (by rw [List.length_replicate]; omega)]
    rw [tpe_exState1]
    rfl
  have hrun0 : runStateAfter 100 exState1 [exInput] 0 =
      mcRunInit exState1 1 := rfl
  rw [hlhs, hrun0, mcRunInit_runningPairEnergy, tpe_exState1,
    tail_exState1]
  show ¬ ((0 : ℝ) = (0 + -(16 / 9) * Real.pi) / ((1 : ℕ) : ℝ))
  rw [Nat.cast_one, div_one, zero_add]
  intro hcontra
  have hpi := Real.pi_ne_zero
  apply hpi
  linarith

end MCSim
